import Mathlib

/-!
Verification of the npc_maker repository (Rust) against its natural-language
specification.

The development shallowly embeds the parts of the source that the claims talk
about:

* `src/rust/src/ctrl.rs` — the controller wire protocol (`Message::read`,
  `Message::write`, the `Controller` handle methods, and the `API::main`
  server loop).  Byte streams are modelled as `List Nat` (each element a byte
  value); Rust `String`s travelling on the wire are modelled by their byte
  lists.  `f64` values (the `dt` field of `Advance`) are kept abstract: the
  code formats them with Rust's `Display` and parses them with `f64::from_str`,
  both from the standard library, so the embedding is parameterised by a
  formatting function and a parsing function.
* `src/rust/src/env.rs` — the `Environment` handle's `birth` and `poll`,
  acting on an outstanding-individuals table.
* `src/rust/src/evo.rs` — `default_score`, `compare_scores`,
  `Individual::save` / `Individual::load` (file layout only; the JSON codec
  is the external serde_json library and is kept abstract), and the
  `Evolution` population manager's `death` / rollover path.

Rust `f64` is modelled by the inductive `F64` which records the classification
relevant to the code under verification (NaN with sign, infinities, finite
value as a rational).  `f64::total_cmp` distinguishes NaN payloads and the two
zeroes; the model collapses those distinctions, none of which the verified
code paths depend on.
-/

namespace NpcMaker

/-! ## Byte-stream primitives (Rust std behaviour used by ctrl.rs) -/

/-- One step of `BufRead::read_line`: split the stream at the first newline
byte (10), the newline included in the returned line; at end of input the
partial line is returned.  Models `reader.read_line(&mut line)` reading into
an empty buffer. -/
def readLine : List Nat → List Nat × List Nat
  | [] => ([], [])
  | b :: rest =>
    if b = 10 then ([10], rest)
    else
      let p := readLine rest
      (b :: p.1, p.2)

theorem readLine_length (l : List Nat) : (readLine l).1.length + (readLine l).2.length = l.length := by
  induction l with
  | nil => simp [readLine]
  | cons b rest ih =>
    by_cases h : b = 10 <;> simp [readLine, h] <;> omega

theorem readLine_ne_nil (l : List Nat) (h : l ≠ []) : (readLine l).1 ≠ [] := by
  match l with
  | [] => exact absurd rfl h
  | b :: rest =>
    by_cases hb : b = 10 <;> simp [readLine, hb]

theorem readLine_rest_lt (l : List Nat) (h : l ≠ []) : (readLine l).2.length < l.length := by
  have h1 := readLine_length l
  have h2 := readLine_ne_nil l h
  have : 0 < (readLine l).1.length := List.length_pos.mpr h2
  omega

theorem readLine_append {body : List Nat} (rest : List Nat) (h : 10 ∉ body) :
    readLine (body ++ 10 :: rest) = (body ++ [10], rest) := by
  induction body with
  | nil => simp [readLine]
  | cons b bs ih =>
    simp only [List.mem_cons, not_or] at h
    simp [readLine, Ne.symm h.1, ih h.2]

/-- `String::pop`: remove the last character (here: last byte). -/
def popByte (l : List Nat) : List Nat := l.dropLast

/-- Skip empty lines and return the first non-empty line (trailing newline
removed) together with the rest of the stream, or `none` at end of input.
Models the `while line.is_empty()` loop at the top of `Message::read`:
`read_line` returning zero bytes is the EOF error, and `line.pop()` discards
the trailing newline.  The loop re-enters exactly when the line was a lone
`"\n"` (first byte 10, skipped structurally here) or when a final byte
stands without a newline, in which case the next iteration reads zero bytes
from the now-empty stream and fails with the EOF error (`none` here). -/
def readNonEmptyLine : List Nat → Option (List Nat × List Nat)
  | [] => none
  | b :: rest =>
    if b = 10 then readNonEmptyLine rest
    else
      let p := readLine (b :: rest)
      let line := popByte p.1
      if line = [] then none else some (line, p.2)

theorem readNonEmptyLine_append {body : List Nat} (rest : List Nat) (h10 : 10 ∉ body)
    (hne : body ≠ []) : readNonEmptyLine (body ++ 10 :: rest) = some (body, rest) := by
  match body, hne with
  | c :: cs, _ =>
    simp only [List.mem_cons, not_or] at h10
    have he : (c :: cs) ++ 10 :: rest = c :: (cs ++ 10 :: rest) := by simp
    rw [he, readNonEmptyLine, if_neg (Ne.symm h10.1), ← he,
      readLine_append rest (by simp only [List.mem_cons, not_or]; exact h10)]
    have hc : c :: (cs ++ [10]) = (c :: cs) ++ [10] := by simp
    simp only [popByte, hc, List.dropLast_concat]
    simp

theorem readNonEmptyLine_rest_lt (input : List Nat) :
    ∀ (line rest : List Nat), readNonEmptyLine input = some (line, rest) →
      rest.length < input.length := by
  induction input with
  | nil => intro _ _ h; simp [readNonEmptyLine] at h
  | cons b tl ih =>
    intro line rest h
    rw [readNonEmptyLine] at h
    have hcons := readLine_rest_lt (b :: tl) (by simp)
    by_cases hb : b = 10
    · rw [if_pos hb] at h
      have := ih line rest h
      simp only [List.length_cons]
      omega
    · rw [if_neg hb] at h
      by_cases hl : popByte (readLine (b :: tl)).1 = []
      · simp [hl] at h
      · simp only [hl, if_false, Option.some.injEq, Prod.mk.injEq] at h
        obtain ⟨h1, h2⟩ := h
        subst h2
        omega

/-- `str::split_once(sep)`: split at the first occurrence of the separator
byte; `none` if the separator does not occur. -/
def splitOnce (sep : Nat) : List Nat → Option (List Nat × List Nat)
  | [] => none
  | b :: rest =>
    if b = sep then some ([], rest)
    else (splitOnce sep rest).map (fun p => (b :: p.1, p.2))

theorem splitOnce_append {xs : List Nat} (sep : Nat) (ys : List Nat) (h : sep ∉ xs) :
    splitOnce sep (xs ++ sep :: ys) = some (xs, ys) := by
  induction xs with
  | nil => simp [splitOnce]
  | cons b bs ih =>
    simp only [List.mem_cons, not_or] at h
    simp [splitOnce, Ne.symm h.1, ih h.2]

/-- ASCII decimal digit test (bytes `'0'..'9'`). -/
def isDigitByte (b : Nat) : Bool := 48 ≤ b && b ≤ 57

/-- Whitespace bytes removed by `str::trim` in the ASCII range
(tab, newline, vertical tab, form feed, carriage return, space).
Multi-byte Unicode whitespace is not modelled; the protocol never produces it
in the positions where `trim` is applied. -/
def isWhitespaceByte (b : Nat) : Bool := (9 ≤ b && b ≤ 13) || b = 32

/-- `str::trim` restricted to ASCII whitespace. -/
def trimBytes (l : List Nat) : List Nat :=
  ((l.dropWhile isWhitespaceByte).reverse.dropWhile isWhitespaceByte).reverse

theorem trimBytes_digits {l : List Nat} (h : l.all isDigitByte) : trimBytes l = l := by
  have hnw : ∀ b ∈ l, ¬ isWhitespaceByte b := by
    intro b hb
    have := List.all_eq_true.mp h b hb
    simp [isDigitByte] at this
    simp [isWhitespaceByte]
    omega
  have h1 : l.dropWhile isWhitespaceByte = l := by
    match hl : l with
    | [] => rfl
    | c :: cs =>
      rw [List.dropWhile_cons_of_neg]
      simp only [Bool.not_eq_true]
      have := hnw c (by simp [hl])
      simpa using this
  have h2 : l.reverse.dropWhile isWhitespaceByte = l.reverse := by
    match hl : l.reverse with
    | [] => rfl
    | c :: cs =>
      rw [List.dropWhile_cons_of_neg]
      have hc : c ∈ l := by
        rw [← List.mem_reverse, hl]; simp
      have := hnw c hc
      simpa using this
  rw [trimBytes, h1, h2, List.reverse_reverse]

/-- Accumulate decimal digits, most significant first
(`acc * 10 + digit` per byte). -/
def digitsVal (l : List Nat) : Nat := l.foldl (fun acc d => acc * 10 + (d - 48)) 0

/-- Strip a single leading `+` sign (byte 43), as `u64::from_str` accepts. -/
def stripPlus : List Nat → List Nat
  | [] => []
  | b :: rest => if b = 43 then rest else b :: rest

/-- `u64::from_str` (also used for `usize`): an optional `+` sign followed by
one or more decimal digits, value below 2^64; anything else is an error. -/
def parseU64 (s : List Nat) : Option Nat :=
  let digits := stripPlus s
  if digits = [] then none
  else if digits.all isDigitByte then
    let v := digitsVal digits
    if v < 2 ^ 64 then some v else none
  else none

/-- Little-endian decimal digits with structural fuel (any fuel at least the
number itself suffices, see `decDigitsAux_eq_digits`). -/
def decDigitsAux : Nat → Nat → List Nat
  | 0, _ => []
  | fuel + 1, n => if n = 0 then [] else n % 10 :: decDigitsAux fuel (n / 10)

theorem decDigitsAux_eq_digits : ∀ fuel n, n ≤ fuel → decDigitsAux fuel n = Nat.digits 10 n := by
  intro fuel
  induction fuel with
  | zero =>
    intro n hn
    have : n = 0 := by omega
    simp [this, decDigitsAux]
  | succ fuel ih =>
    intro n hn
    by_cases h0 : n = 0
    · simp [h0, decDigitsAux]
    · have hdiv : n / 10 < n := Nat.div_lt_self (by omega) (by norm_num)
      have hfuel : n / 10 ≤ fuel := by omega
      rw [decDigitsAux, if_neg h0, ih (n / 10) hfuel]
      rw [Nat.digits_def' (by norm_num : (1 : ℕ) < 10) (show 0 < n by omega)]

/-- Rust `u64` `Display`: canonical decimal digits, most significant first. -/
def natToDecimal (n : Nat) : List Nat :=
  if n = 0 then [48] else ((decDigitsAux n n).map (· + 48)).reverse

theorem natToDecimal_eq_digits (n : Nat) :
    natToDecimal n = if n = 0 then [48] else ((Nat.digits 10 n).map (· + 48)).reverse := by
  rw [natToDecimal, decDigitsAux_eq_digits n n le_rfl]

theorem digitsVal_eq_ofDigits (L : List Nat) (a : Nat) :
    ((L.map (· + 48)).reverse.foldl (fun acc d => acc * 10 + (d - 48)) a) =
      a * 10 ^ L.length + Nat.ofDigits 10 L := by
  induction L generalizing a with
  | nil => simp
  | cons d L ih =>
    simp only [List.map_cons, List.reverse_cons, List.foldl_append, List.foldl_cons,
      List.foldl_nil, ih a, Nat.ofDigits_cons, List.length_cons]
    ring_nf
    omega

theorem natToDecimal_all_digits (n : Nat) : (natToDecimal n).all isDigitByte := by
  rw [natToDecimal_eq_digits]
  by_cases h : n = 0
  · simp [h, isDigitByte]
  · simp only [h, if_false, List.all_reverse, List.all_map, List.all_eq_true]
    intro d hd
    have := Nat.digits_lt_base (by norm_num) hd
    simp only [Function.comp_apply, isDigitByte, Bool.and_eq_true, decide_eq_true_eq]
    omega

theorem natToDecimal_ne_nil (n : Nat) : natToDecimal n ≠ [] := by
  rw [natToDecimal_eq_digits]
  by_cases h : n = 0
  · simp [h]
  · simp only [h, if_false, ne_eq, List.reverse_eq_nil_iff, List.map_eq_nil_iff]
    exact Nat.digits_ne_nil_iff_ne_zero.mpr h

theorem digitsVal_natToDecimal (n : Nat) : digitsVal (natToDecimal n) = n := by
  rw [natToDecimal_eq_digits]
  by_cases h : n = 0
  · simp [digitsVal, h]
  · simp only [h, if_false, digitsVal]
    rw [digitsVal_eq_ofDigits (Nat.digits 10 n) 0]
    simp [Nat.ofDigits_digits]

theorem natToDecimal_not_whitespace (n : Nat) : ∀ b ∈ natToDecimal n, ¬ isWhitespaceByte b := by
  intro b hb
  have := List.all_eq_true.mp (natToDecimal_all_digits n) b hb
  simp only [decide_eq_true_eq, isDigitByte, Bool.and_eq_true, decide_eq_true_eq] at this
  simp [isWhitespaceByte]
  omega

theorem natToDecimal_head_ne_plus (n : Nat) :
    ∀ rest, natToDecimal n ≠ 43 :: rest := by
  intro rest hcontra
  have : (43 : Nat) ∈ natToDecimal n := by rw [hcontra]; simp
  have := List.all_eq_true.mp (natToDecimal_all_digits n) 43 this
  simp [isDigitByte] at this

theorem stripPlus_of_digits {l : List Nat} (h : l.all isDigitByte) : stripPlus l = l := by
  match l with
  | [] => rfl
  | b :: rest =>
    have hb := List.all_eq_true.mp h b (by simp)
    simp only [isDigitByte, Bool.and_eq_true, decide_eq_true_eq] at hb
    have : b ≠ 43 := by omega
    simp [stripPlus, this]

theorem parseU64_natToDecimal {n : Nat} (h : n < 2 ^ 64) : parseU64 (natToDecimal n) = some n := by
  have h' : n < 18446744073709551616 := by norm_num at h; exact h
  simp [parseU64, stripPlus_of_digits (natToDecimal_all_digits n), natToDecimal_ne_nil n,
    natToDecimal_all_digits n, digitsVal_natToDecimal n, h']

/-- ASCII uppercasing of a byte (`u8::to_ascii_uppercase` /
`char::to_ascii_uppercase` for ASCII characters). -/
def toAsciiUpper (b : Nat) : Nat := if 97 ≤ b ∧ b ≤ 122 then b - 32 else b

/-- The reserved command tag bytes of the controller protocol:
`E P G R I B X O S L Q`. -/
def reservedTags : List Nat := [69, 80, 71, 82, 73, 66, 88, 79, 83, 76, 81]

/-! ## ctrl.rs: the `Message` enum and its codec

`Message` is parameterised by the type `α` standing for Rust `f64` (the `dt`
field of `Advance`).  `Message::write` formats `dt` with `Display` and
`Message::read` parses it with `f64::from_str`; these standard-library
functions enter the embedding as the parameters `fmtF` / `parseF`. -/

inductive CtrlMessage (α : Type) where
  | environment (environment : List Nat)
  | population (population : List Nat)
  | genome (value : List Nat)
  | reset
  | advance (dt : α)
  | setInput (gin : Nat) (value : List Nat)
  | setBinary (gin : Nat) (bytes : List Nat)
  | getOutput (gin : Nat)
  | save (path : List Nat)
  | load (path : List Nat)
  | custom (messageType : Nat) (body : List Nat)
  | quit
  deriving DecidableEq

/-- Whether a message is the `Custom` variant. -/
def CtrlMessage.isCustom {α : Type} : CtrlMessage α → Bool
  | .custom _ _ => true
  | _ => false

/-- `Message::write` from ctrl.rs: one header line per message
(`writeln!`), and for `SetBinary` the raw payload bytes appended after the
header line. -/
def writeMessage {α : Type} (fmtF : α → List Nat) : CtrlMessage α → List Nat
  | .environment p => 69 :: p ++ [10]
  | .population p => 80 :: p ++ [10]
  | .genome v => 71 :: v ++ [10]
  | .reset => [82, 10]
  | .advance dt => 88 :: fmtF dt ++ [10]
  | .setInput gin v => 73 :: (natToDecimal gin ++ 58 :: v) ++ [10]
  | .setBinary gin bs => (66 :: (natToDecimal gin ++ 58 :: natToDecimal bs.length) ++ [10]) ++ bs
  | .getOutput gin => 79 :: natToDecimal gin ++ [10]
  | .save p => 83 :: p ++ [10]
  | .load p => 76 :: p ++ [10]
  | .custom t b => t :: b ++ [10]
  | .quit => [81, 10]

/-- Dispatch of `Message::read` once a non-empty header line (tag byte `t`,
body `body`) has been read; `rest` is the unread remainder of the stream,
consumed further only by the `B` (SetBinary) payload.  `none` models both the
`Err(...)` returns and the `unwrap()` panics of the Rust code.  The tag is
taken to be a single byte: faithful for ASCII tags, which are the only ones
the reserved dispatch and the claims concern. -/
def parseTaggedUp {α : Type} (parseF : List Nat → Option α) (t up : Nat) (body rest : List Nat) :
    Option (CtrlMessage α × List Nat) :=
  if up = 69 then some (.environment body, rest)
  else if up = 80 then some (.population body, rest)
  else if up = 71 then some (.genome body, rest)
  else if up = 82 then some (.reset, rest)
  else if up = 73 then
    match splitOnce 58 body with
    | none => none
    | some (g, v) =>
      match parseU64 (trimBytes g) with
      | none => none
      | some gin => some (.setInput gin v, rest)
  else if up = 66 then
    match splitOnce 58 body with
    | none => none
    | some (g, nb) =>
      match parseU64 (trimBytes nb) with
      | none => none
      | some numBytes =>
        if numBytes ≤ rest.length then
          match parseU64 (trimBytes g) with
          | none => none
          | some gin => some (.setBinary gin (rest.take numBytes), rest.drop numBytes)
        else none
  else if up = 88 then
    match parseF body with
    | none => none
    | some dt => some (.advance dt, rest)
  else if up = 79 then
    match parseU64 body with
    | none => none
    | some gin => some (.getOutput gin, rest)
  else if up = 83 then some (.save body, rest)
  else if up = 76 then some (.load body, rest)
  else if up = 81 then some (.quit, rest)
  else some (.custom t body, rest)

/-- Dispatch on the ASCII-uppercased tag byte, as in `Message::read`. -/
def parseTagged {α : Type} (parseF : List Nat → Option α) (t : Nat) (body rest : List Nat) :
    Option (CtrlMessage α × List Nat) :=
  parseTaggedUp parseF t (toAsciiUpper t) body rest

/-- `Message::read` from ctrl.rs: skip empty lines, take the first byte as
the tag, uppercase it for dispatch, and parse the rest of the line (plus, for
`B`, a raw payload read with `read_exact`).  Returns the parsed message and
the unread remainder of the stream; `none` models the EOF error, the
`InvalidData` errors and the parse `unwrap()` panics. -/
def readMessage {α : Type} (parseF : List Nat → Option α) (input : List Nat) :
    Option (CtrlMessage α × List Nat) :=
  match readNonEmptyLine input with
  | none => none
  | some (line, rest) =>
    match line with
    | [] => none
    | t :: body => parseTagged parseF t body rest

set_option maxHeartbeats 1000000 in
theorem parseTaggedUp_rest_le {α : Type} (parseF : List Nat → Option α) (t up : Nat)
    (body rest : List Nat) {m : CtrlMessage α} {rest' : List Nat}
    (h : parseTaggedUp parseF t up body rest = some (m, rest')) : rest'.length ≤ rest.length := by
  unfold parseTaggedUp at h
  repeat' split at h
  all_goals cases h
  all_goals (try simp only [List.length_drop])
  all_goals omega

theorem parseTagged_rest_le {α : Type} (parseF : List Nat → Option α) (t : Nat)
    (body rest : List Nat) {m : CtrlMessage α} {rest' : List Nat}
    (h : parseTagged parseF t body rest = some (m, rest')) : rest'.length ≤ rest.length :=
  parseTaggedUp_rest_le parseF t (toAsciiUpper t) body rest h

theorem readMessage_rest_lt {α : Type} (parseF : List Nat → Option α) {input : List Nat}
    {m : CtrlMessage α} {rest : List Nat} (h : readMessage parseF input = some (m, rest)) :
    rest.length < input.length := by
  unfold readMessage at h
  rcases hr : readNonEmptyLine input with _ | ⟨line, r0⟩ <;> rw [hr] at h
  · exact absurd h (by simp)
  · have hlt := readNonEmptyLine_rest_lt input line r0 hr
    match line with
    | [] => exact absurd h (by simp)
    | t :: lbody =>
      simp only at h
      have := parseTagged_rest_le parseF t lbody r0 h
      omega

theorem natToDecimal_bounds (n : Nat) : ∀ b ∈ natToDecimal n, 48 ≤ b ∧ b ≤ 57 := by
  intro b hb
  have := List.all_eq_true.mp (natToDecimal_all_digits n) b hb
  simp only [decide_eq_true_eq, isDigitByte, Bool.and_eq_true, decide_eq_true_eq] at this
  omega

theorem natToDecimal_not_mem_10 (n : Nat) : 10 ∉ natToDecimal n := by
  intro h
  have := natToDecimal_bounds n 10 h
  omega

theorem natToDecimal_not_mem_58 (n : Nat) : 58 ∉ natToDecimal n := by
  intro h
  have := natToDecimal_bounds n 58 h
  omega

/-- The framing rules of the controller protocol, as the code itself imposes
them: textual fields carry no newline byte (the `debug_assert!`s in the
`Controller` methods and the spec's framing rules), GINs and payload lengths
fit in their 64-bit machine types, the `Advance` float survives its own
format / parse pair (a guarantee of the Rust standard library for `f64`
`Display` / `FromStr`, which also never prints a newline), and a `Custom` tag
is an ASCII byte that is not a newline and does not uppercase onto a reserved
tag (the `debug_assert!`s in `Controller::custom`). -/
def WellFormedMsg {α : Type} (fmtF : α → List Nat) (parseF : List Nat → Option α) :
    CtrlMessage α → Prop
  | .environment p => 10 ∉ p
  | .population p => 10 ∉ p
  | .genome v => 10 ∉ v
  | .reset => True
  | .advance dt => parseF (fmtF dt) = some dt ∧ 10 ∉ fmtF dt
  | .setInput gin v => gin < 2 ^ 64 ∧ 10 ∉ v
  | .setBinary gin bs => gin < 2 ^ 64 ∧ bs.length < 2 ^ 64
  | .getOutput gin => gin < 2 ^ 64
  | .save p => 10 ∉ p
  | .load p => 10 ∉ p
  | .custom t b => toAsciiUpper t ∉ reservedTags ∧ t ≠ 10 ∧ t < 128 ∧ 10 ∉ b
  | .quit => True

theorem readNonEmptyLine_write_line (t : Nat) (body rest : List Nat) (ht : t ≠ 10)
    (hb : 10 ∉ body) : readNonEmptyLine ((t :: body) ++ 10 :: rest) = some (t :: body, rest) :=
  readNonEmptyLine_append rest (by simp [Ne.symm ht, hb]) (by simp)

theorem parse_header_line {α : Type} (parseF : List Nat → Option α) (t : Nat)
    (body rest : List Nat) (ht : t ≠ 10) (hb : 10 ∉ body) :
    readMessage parseF ((t :: body ++ [10]) ++ rest) =
      parseTagged parseF t body rest := by
  have h := readNonEmptyLine_write_line t body rest ht hb
  simp only [readMessage]
  rw [show ((t :: body ++ [10]) ++ rest : List Nat) = (t :: body) ++ 10 :: rest by simp, h]

/-- Claim C3: for every controller-protocol frame that obeys the protocol's
framing rules (`WellFormedMsg`: no newline in textual fields, 64-bit GINs
and payload lengths, a `Custom` tag that is ASCII, not a newline, and not a
reserved tag once uppercased, and an `Advance` float that its own
format/parse pair round-trips — the standard library guarantee for `f64`),
parsing the bytes produced by `Message::write` returns the same frame and
consumes the whole stream.  This covers paths and values with spaces,
quotes, colons and backslashes, empty strings, and binary payloads
containing NUL, newline, backslash and quote bytes. -/
theorem ctrl_read_write_roundtrip {α : Type} (fmtF : α → List Nat) (parseF : List Nat → Option α)
    (m : CtrlMessage α) (h : WellFormedMsg fmtF parseF m) :
    readMessage parseF (writeMessage fmtF m) = some (m, []) := by
  cases m with
  | environment p =>
    have := parse_header_line parseF 69 (p) [] (by omega) h
    simp only [writeMessage]
    rw [← List.append_nil (69 :: p ++ [10]), this]
    simp [parseTagged, parseTaggedUp, toAsciiUpper]
  | population p =>
    have := parse_header_line parseF 80 (p) [] (by omega) h
    simp only [writeMessage]
    rw [← List.append_nil (80 :: p ++ [10]), this]
    simp [parseTagged, parseTaggedUp, toAsciiUpper]
  | genome v =>
    have := parse_header_line parseF 71 (v) [] (by omega) h
    simp only [writeMessage]
    rw [← List.append_nil (71 :: v ++ [10]), this]
    simp [parseTagged, parseTaggedUp, toAsciiUpper]
  | reset =>
    have := parse_header_line parseF 82 ([]) [] (by omega) (by simp)
    simp only [writeMessage]
    rw [show ([82, 10] : List Nat) = (82 :: [] ++ [10]) ++ [] by simp, this]
    simp [parseTagged, parseTaggedUp, toAsciiUpper]
  | advance dt =>
    obtain ⟨hparse, hnl⟩ := h
    have := parse_header_line parseF 88 (fmtF dt) [] (by omega) hnl
    simp only [writeMessage]
    rw [← List.append_nil (88 :: fmtF dt ++ [10]), this]
    simp [parseTagged, parseTaggedUp, toAsciiUpper, hparse]
  | setInput gin v =>
    obtain ⟨hgin, hv⟩ := h
    have hnl : 10 ∉ natToDecimal gin ++ 58 :: v := by
      simp only [List.mem_append, List.mem_cons, not_or]
      exact ⟨natToDecimal_not_mem_10 gin, by omega, hv⟩
    have := parse_header_line parseF 73 (natToDecimal gin ++ 58 :: v) []
      (by omega) hnl
    simp only [writeMessage]
    rw [← List.append_nil (73 :: (natToDecimal gin ++ 58 :: v) ++ [10]), this]
    simp only [parseTagged, parseTaggedUp, toAsciiUpper]
    norm_num
    rw [splitOnce_append 58 v (natToDecimal_not_mem_58 gin)]
    simp [trimBytes_digits (natToDecimal_all_digits gin), parseU64_natToDecimal hgin]
  | setBinary gin bs =>
    obtain ⟨hgin, hlen⟩ := h
    have hnl : 10 ∉ natToDecimal gin ++ 58 :: natToDecimal bs.length := by
      simp only [List.mem_append, List.mem_cons, not_or]
      exact ⟨natToDecimal_not_mem_10 gin, by omega, natToDecimal_not_mem_10 bs.length⟩
    have := parse_header_line parseF 66
      (natToDecimal gin ++ 58 :: natToDecimal bs.length) bs (by omega) hnl
    simp only [writeMessage]
    rw [this]
    simp only [parseTagged, parseTaggedUp, toAsciiUpper]
    norm_num
    rw [splitOnce_append 58 (natToDecimal bs.length) (natToDecimal_not_mem_58 gin)]
    simp [trimBytes_digits (natToDecimal_all_digits bs.length), parseU64_natToDecimal hlen,
      trimBytes_digits (natToDecimal_all_digits gin), parseU64_natToDecimal hgin]
  | getOutput gin =>
    have := parse_header_line parseF 79 (natToDecimal gin) [] (by omega)
      (natToDecimal_not_mem_10 gin)
    simp only [writeMessage]
    rw [← List.append_nil (79 :: natToDecimal gin ++ [10]), this]
    simp only [parseTagged, parseTaggedUp, toAsciiUpper]
    norm_num
    rw [parseU64_natToDecimal h]
  | save p =>
    have := parse_header_line parseF 83 (p) [] (by omega) h
    simp only [writeMessage]
    rw [← List.append_nil (83 :: p ++ [10]), this]
    simp [parseTagged, parseTaggedUp, toAsciiUpper]
  | load p =>
    have := parse_header_line parseF 76 (p) [] (by omega) h
    simp only [writeMessage]
    rw [← List.append_nil (76 :: p ++ [10]), this]
    simp [parseTagged, parseTaggedUp, toAsciiUpper]
  | custom t b =>
    obtain ⟨hres, ht10, ht128, hb⟩ := h
    simp only [reservedTags, List.mem_cons, List.not_mem_nil, not_or] at hres
    have := parse_header_line parseF t (b) [] ht10 hb
    simp only [writeMessage]
    rw [← List.append_nil (t :: b ++ [10]), this]
    simp only [parseTagged, parseTaggedUp]
    simp [hres.1, hres.2.1, hres.2.2.1, hres.2.2.2.1, hres.2.2.2.2.1, hres.2.2.2.2.2.1,
      hres.2.2.2.2.2.2.1, hres.2.2.2.2.2.2.2.1, hres.2.2.2.2.2.2.2.2.1,
      hres.2.2.2.2.2.2.2.2.2.1, hres.2.2.2.2.2.2.2.2.2.2]
  | quit =>
    have := parse_header_line parseF 81 ([]) [] (by omega) (by simp)
    simp only [writeMessage]
    rw [show ([81, 10] : List Nat) = (81 :: [] ++ [10]) ++ [] by simp, this]
    simp [parseTagged, parseTaggedUp, toAsciiUpper]

/-! ## ctrl.rs: the `Controller` handle and the `API::main` server loop -/

/-- `Controller::genome`: writes the line `G{value}` — the value itself is the
header body; there is no byte count and no raw payload. -/
def controllerGenomeBytes (value : List Nat) : List Nat := 71 :: value ++ [10]

/-- `Controller::advance`: writes the line `X{dt}`. -/
def controllerAdvanceBytes {α : Type} (fmtF : α → List Nat) (dt : α) : List Nat :=
  88 :: fmtF dt ++ [10]

/-- The request side of `Controller::get_outputs`: one `O{gin}` line per GIN,
in list order, then a flush. -/
def getOutputsRequest (ginList : List Nat) : List Nat :=
  (ginList.map (fun gin => 79 :: natToDecimal gin ++ [10])).foldr (· ++ ·) []

/-- `HashMap::insert` on an association-list model of the outputs map
(`HashMap<u64, String>`): replace the value when the key is present, add an
entry otherwise.  The list never holds duplicate keys, so its length is the
map's `len()`. -/
def insertOutput (gin : Nat) (value : List Nat) : List (Nat × List Nat) → List (Nat × List Nat)
  | [] => [(gin, value)]
  | p :: rest => if p.1 = gin then (gin, value) :: rest else p :: insertOutput gin value rest

/-- The response-reading loop of `Controller::get_outputs`: while fewer than
`count` outputs are collected, read one line from the controller, strip the
trailing newline, split it at the first `:` into `gin` and `value`, and
insert into the map.  `none` models the `unwrap()` panics (line without `:`,
unparsable gin — including the panic on an empty line once input is
exhausted). -/
def readOutputs (count : Nat) : List Nat → List (Nat × List Nat) → Option (List (Nat × List Nat))
  | input, acc =>
    if acc.length < count then
      match input with
      | [] => none
      | b :: rest =>
        let p := readLine (b :: rest)
        let line := popByte p.1
        match splitOnce 58 line with
        | none => none
        | some (g, v) =>
          match parseU64 g with
          | none => none
          | some gin => readOutputs count p.2 (insertOutput gin v acc)
    else some acc
  termination_by input _ => input.length
  decreasing_by
    exact readLine_rest_lt (b :: rest) (by simp)

/-- The callbacks of the `API` trait, in the order `API::main` invokes them.
`quitHook` is the user-defined `quit` hook. -/
inductive ApiCall (α : Type) where
  | genome (environment population value : List Nat)
  | reset
  | advance (dt : α)
  | setInput (gin : Nat) (value : List Nat)
  | setBinary (gin : Nat) (bytes : List Nat)
  | getOutput (gin : Nat)
  | save (path : List Nat)
  | load (path : List Nat)
  | custom (messageType : Nat) (body : List Nat)
  | quitHook
  deriving DecidableEq

/-- Prefix a recorded callback onto a loop result. -/
def consCall {α : Type} (c : ApiCall α) (r : List (ApiCall α) × Bool) :
    List (ApiCall α) × Bool := (c :: r.1, r.2)

/-- The `API::main` server loop of ctrl.rs.  `env` / `pop` thread the
`ENVIRONMENT` / `POPULATION` globals (a missing value defaults to the empty
path / empty string, as in the code).  Returns the callback invocations in
order, paired with `true` when the loop returned normally — which happens
only after a `Quit` frame, whose handler invokes the `quit` hook and breaks —
or `false` when `poll()?` propagated a read error, in particular the
`UnexpectedEof` error that `Message::read` raises once stdin is closed. -/
def apiMain {α : Type} (parseF : List Nat → Option α) :
    List Nat → Option (List Nat) → Option (List Nat) → List (ApiCall α) × Bool
  | input, env, pop =>
    match hr : readMessage parseF input with
    | none => ([], false)
    | some (msg, rest) =>
      match msg with
      | .environment e => apiMain parseF rest (some e) pop
      | .population p => apiMain parseF rest env (some p)
      | .genome v => consCall (.genome (env.getD []) (pop.getD []) v) (apiMain parseF rest env pop)
      | .reset => consCall .reset (apiMain parseF rest env pop)
      | .advance dt => consCall (.advance dt) (apiMain parseF rest env pop)
      | .setInput gin v => consCall (.setInput gin v) (apiMain parseF rest env pop)
      | .setBinary gin bs => consCall (.setBinary gin bs) (apiMain parseF rest env pop)
      | .getOutput gin => consCall (.getOutput gin) (apiMain parseF rest env pop)
      | .save p => consCall (.save p) (apiMain parseF rest env pop)
      | .load p => consCall (.load p) (apiMain parseF rest env pop)
      | .custom t b => consCall (.custom t b) (apiMain parseF rest env pop)
      | .quit => ([.quitHook], true)
  termination_by input _ _ => input.length
  decreasing_by
    all_goals exact readMessage_rest_lt parseF hr

/-! ## evo.rs: the `Individual` record

The serde-serialized metadata fields form `IndivMeta`; the serde-skipped
fields (`genome`, a `OnceLock<Arc<[u8]>>` modelled as an optional byte list,
and `path`) live beside it in `Indiv`.  Hash maps with string keys are
modelled as duplicate-free association lists; `extra`
(`HashMap<String, serde_json::Value>`) keeps each value as its serialized
text. -/

structure IndivMeta where
  name : String
  ascension : Option Nat
  environment : String
  population : String
  species : String
  controller : List String
  telemetry : List (String × String)
  epigenome : List (String × String)
  score : Option String
  generation : Nat
  parents : List String
  children : List String
  birth_date : String
  death_date : String
  extra : List (String × String)
  deriving DecidableEq

structure Indiv where
  meta : IndivMeta
  genome : Option (List Nat)
  path : Option String
  deriving DecidableEq

/-- `HashMap::insert` on an association list: replace in place when the key
is present, append otherwise. -/
def insertAssoc {ν : Type} (k : String) (v : ν) : List (String × ν) → List (String × ν)
  | [] => [(k, v)]
  | p :: rest => if p.1 = k then (k, v) :: rest else p :: insertAssoc k v rest

/-- `HashMap::get` on an association list. -/
def lookupAssoc {ν : Type} (k : String) : List (String × ν) → Option ν
  | [] => none
  | p :: rest => if p.1 = k then some p.2 else lookupAssoc k rest

/-- `HashMap::remove` on an association list. -/
def removeAssoc {ν : Type} (k : String) : List (String × ν) → List (String × ν)
  | [] => []
  | p :: rest => if p.1 = k then rest else p :: removeAssoc k rest

/-- `HashMap::get_mut` followed by a mutation, on an association list. -/
def updateAssoc {ν : Type} (k : String) (f : ν → ν) : List (String × ν) → List (String × ν)
  | [] => []
  | p :: rest => if p.1 = k then (p.1, f p.2) :: rest else p :: updateAssoc k f rest

/-! ## env.rs: the `Environment` handle -/

/-- The `JsonMessage` enum of env.rs (messages an environment subprocess
sends to the driver), after serde_json decoding. -/
inductive JsonMessage where
  | spawn (population : String)
  | mate (parent1 parent2 : String)
  | score (value : String) (name : String)
  | telemetry (info : List (String × String)) (name : String)
  | death (name : String)
  deriving DecidableEq

/-- The public `Message` enum of env.rs: events `Environment::poll` surfaces
to the driver. -/
inductive EnvEvent where
  | spawn (population : String)
  | mate (parent1 parent2 : String)
  | death (individual : Indiv)
  deriving DecidableEq

/-- The fill-in step of `Environment::poll` for the `name` field of `Score`,
`Telemetry` and `Death`: an empty name means the single outstanding
individual; with any other number of outstanding individuals the code
panics (`none`). -/
def fillName (outstanding : List (String × Indiv)) (name : String) : Option String :=
  if name = "" then
    match outstanding with
    | [p] => some p.1
    | _ => none
  else some name

/-- `Environment::poll` from env.rs, acting on one already-decoded message.
`now` is the `timestamp()` value (real clock, threaded as a parameter),
`bodyTypes` the names of the env-spec's `body_types`, `outstanding` the
outstanding-individuals map.  Returns the new outstanding map and the event
surfaced to the driver (`none` when the message is consumed internally);
an outer `none` models the `panic!` / failed `assert!` on a missing or
unknown name or population. -/
def pollMessage (now : String) (bodyTypes : List String)
    (outstanding : List (String × Indiv)) (msg : JsonMessage) :
    Option (List (String × Indiv) × Option EnvEvent) :=
  match msg with
  | .spawn population =>
    match (if population = "" then
        (match bodyTypes with
         | [only] => some only
         | _ => none)
      else some population) with
    | none => none
    | some population =>
      if bodyTypes.contains population then some (outstanding, some (.spawn population))
      else none
  | .mate parent1 parent2 =>
    if (lookupAssoc parent1 outstanding).isSome ∧ (lookupAssoc parent2 outstanding).isSome then
      some (outstanding, some (.mate parent1 parent2))
    else none
  | .score value name =>
    match fillName outstanding name with
    | none => none
    | some name =>
      if (lookupAssoc name outstanding).isSome then
        some (updateAssoc name (fun ind => { ind with meta.score := some value }) outstanding, none)
      else none
  | .telemetry info name =>
    match fillName outstanding name with
    | none => none
    | some name =>
      if (lookupAssoc name outstanding).isSome then
        some (updateAssoc name
          (fun ind => { ind with
            meta.telemetry := info.foldl (fun t p => insertAssoc p.1 p.2 t) ind.meta.telemetry })
          outstanding, none)
      else none
  | .death name =>
    match fillName outstanding name with
    | none => none
    | some name =>
      match lookupAssoc name outstanding with
      | none => none
      | some ind =>
        some (removeAssoc name outstanding,
          some (.death { ind with meta.death_date := now }))

/-- `Environment::birth` from env.rs: stamp the birth date and insert the
individual into the outstanding map by name (the framed message written to
the subprocess is not modelled here). -/
def birth (now : String) (outstanding : List (String × Indiv)) (individual : Indiv) :
    List (String × Indiv) :=
  insertAssoc individual.meta.name { individual with meta.birth_date := now } outstanding

/-! ## evo.rs: scores

Rust `f64` is modelled by its classification: a NaN with its sign bit, an
infinity with its sign, or a finite value as a rational.  The model collapses
NaN payloads and the `-0.0` / `+0.0` distinction, which `f64::total_cmp`
can observe but which no verified code path depends on. -/

inductive F64 where
  | nan (negative : Bool)
  | inf (negative : Bool)
  | fin (val : ℚ)
  deriving DecidableEq

/-- `f64::is_nan`. -/
def F64.isNan : F64 → Bool
  | .nan _ => true
  | _ => false

/-- Position of a value's class in the `total_cmp` order:
`-NaN < -inf < finite < +inf < +NaN`. -/
def F64.cls : F64 → Nat
  | .nan true => 0
  | .inf true => 1
  | .fin _ => 2
  | .inf false => 3
  | .nan false => 4

/-- The finite value, `0` for the non-finite classes. -/
def F64.val : F64 → ℚ
  | .fin q => q
  | _ => 0

/-- Comparison of rationals as an `Ordering`. -/
def qCompare (a b : ℚ) : Ordering :=
  if a < b then .lt else if a = b then .eq else .gt

/-- Comparison of naturals as an `Ordering`. -/
def natCompare (a b : Nat) : Ordering :=
  if a < b then .lt else if a = b then .eq else .gt

/-- `f64::total_cmp` on the model: compare the classes, then the finite
values. -/
def F64.totalCmp (a b : F64) : Ordering :=
  match natCompare a.cls b.cls with
  | .eq => qCompare a.val b.val
  | o => o

/-- `DEFAULT_SCORE` from evo.rs: `f64::NEG_INFINITY`. -/
def DEFAULT_SCORE : F64 := .inf true

/-- `default_score` from evo.rs, parameterised by `parseF64` for
`str::parse::<f64>` (Rust standard library): a missing score or a parse
error yields `DEFAULT_SCORE = -inf`. -/
def default_score (parseF64 : String → Option F64) (individual : Indiv) : F64 :=
  match individual.meta.score with
  | some score => (parseF64 score).getD DEFAULT_SCORE
  | none => DEFAULT_SCORE

/-- `compare_scores` from evo.rs: the comparator used to sort leaderboards
and select hall-of-fame inductees.  Non-NaN scores (and pairs of NaNs)
compare by `total_cmp`; a NaN against a non-NaN is `Less`; the whole result
is then reversed, making the sort descending with every NaN after every
non-NaN. -/
def compare_scores {α : Type} (scoreFn : α → F64) (a b : α) : Ordering :=
  (match (scoreFn a).isNan, (scoreFn b).isNan with
   | false, false => (scoreFn a).totalCmp (scoreFn b)
   | true, true => (scoreFn a).totalCmp (scoreFn b)
   | false, true => Ordering.gt
   | true, false => Ordering.lt).swap

/-! ## evo.rs: `Individual::save` / `Individual::load` file layout

The JSON codec is the external serde_json library; it enters the embedding
as an encode function (`Individual` serialization skips the `genome` and
`path` fields, so the encoder acts on `IndivMeta`) and a decode function. -/

/-- The bytes `Individual::save` writes (through the temporary file that is
then renamed into place): the serde_json metadata, one NUL byte, then the
genome bytes verbatim. -/
def saveFileBytes (jsonEnc : IndivMeta → List Nat) (meta : IndivMeta) (genome : List Nat) :
    List Nat :=
  jsonEnc meta ++ 0 :: genome

/-- The in-memory record after `Individual::save` returned the saved path
`p`: the genome `OnceLock` is taken (freed) and `path` is set. -/
def savedIndiv (ind : Indiv) (p : String) : Indiv :=
  { ind with genome := none, path := some p }

/-- `BufRead::read_until(0)`: everything up to and including the first NUL
byte (or the whole input when there is none). -/
def readUntilNul : List Nat → List Nat
  | [] => []
  | b :: rest => if b = 0 then [0] else b :: readUntilNul rest

/-- `Vec::pop_if(|c| c == 0)`: drop a trailing NUL byte. -/
def popIfNul (l : List Nat) : List Nat :=
  if l.getLast? = some 0 then l.dropLast else l

/-- `BufRead::skip_until(0)` followed by `read_to_end`: the file contents
after the first NUL byte. -/
def afterNul : List Nat → List Nat
  | [] => []
  | b :: rest => if b = 0 then rest else afterNul rest

/-- `Individual::load` from evo.rs: read the metadata up to the NUL
separator, drop the separator, decode with serde_json, and remember the
path; the genome stays unloaded (`Individual::genome` later re-reads
`afterNul` of the file).  `none` models the JSON decode error. -/
def loadIndiv (jsonDec : List Nat → Option IndivMeta) (p : String) (file : List Nat) :
    Option Indiv :=
  match jsonDec (popIfNul (readUntilNul file)) with
  | none => none
  | some meta => some { meta := meta, genome := none, path := some p }

/-! ## evo.rs: the `Evolution` population manager

The machine models the hall-of-fame path of `Evolution` under the default
`Replacement::Generation` policy.  The leaderboard rollover step touches only
the `leaderboard` field and is not modelled; `Individual::save`'s disk
round-trip inside `death` mutates only the serde-skipped `genome` / `path`
fields.  The in-place partition of `select_nth_unstable_by` (whose order
within the two partitions Rust leaves unspecified) is refined to a full sort
by the same comparator, and `sort_unstable_by_key` to a sort by the same key:
both are behaviours the unstable algorithms are permitted to produce. -/

/-- The derived `Ord` on Rust `Option<u64>`: `None` below every `Some`. -/
def optNatLe : Option Nat → Option Nat → Prop
  | none, _ => True
  | some _, none => False
  | some a, some b => a ≤ b

instance : DecidableRel optNatLe := by
  intro a b
  cases a <;> cases b <;> simp only [optNatLe] <;> infer_instance

instance : IsTotal (Option Nat) optNatLe := by
  constructor
  intro a b
  cases a <;> cases b <;> simp [optNatLe, Nat.le_total]

instance : IsTrans (Option Nat) optNatLe := by
  constructor
  intro a b c hab hbc
  cases a <;> cases b <;> cases c <;> simp_all [optNatLe] <;> omega

/-- The `sort_unstable_by_key(|individual| individual.ascension)` key order. -/
def ascLe (a b : Indiv) : Prop := optNatLe a.meta.ascension b.meta.ascension

instance : DecidableRel ascLe := fun a b =>
  inferInstanceAs (Decidable (optNatLe a.meta.ascension b.meta.ascension))

instance : IsTotal Indiv ascLe :=
  ⟨fun a b => IsTotal.total (r := optNatLe) a.meta.ascension b.meta.ascension⟩

instance : IsTrans Indiv ascLe :=
  ⟨fun _ _ _ hab hbc => IsTrans.trans (r := optNatLe) _ _ _ hab hbc⟩

/-- Non-strict order induced by the `compare_scores` comparator. -/
def scoreLe (sf : Indiv → F64) (a b : Indiv) : Prop := compare_scores sf a b ≠ .gt

instance (sf : Indiv → F64) : DecidableRel (scoreLe sf) := fun a b =>
  inferInstanceAs (Decidable (compare_scores sf a b ≠ .gt))

/-- The state of `Evolution` relevant to the hall of fame, under the default
`Replacement::Generation` policy. -/
structure EvoState where
  population_size : Nat
  hall_of_fame_size : Nat
  ascension : Nat
  generation : Nat
  members : List Indiv
  waiting : List Indiv
  hall_of_fame : List Indiv

/-- `Evolution::rollover_hall_of_fame` from evo.rs: nothing happens with a
zero cap or an empty waiting buffer; otherwise `n` is
`hall_of_fame_size.min(waiting.len() - 1)`, `select_nth_unstable_by(n,
compare_scores(..))` arranges the `n` best scorers (under the descending
comparator) in `waiting[..n]`, those winners are sorted by ascension in
place, and appended to the hall of fame. -/
def rollover_hall_of_fame (sf : Indiv → F64) (st : EvoState) : EvoState :=
  if st.hall_of_fame_size = 0 ∨ st.waiting = [] then st
  else
    let n := min st.hall_of_fame_size (st.waiting.length - 1)
    let arranged := List.insertionSort (scoreLe sf) st.waiting
    let winners := List.insertionSort ascLe (arranged.take n)
    { st with
      waiting := winners ++ arranged.drop n,
      hall_of_fame := st.hall_of_fame ++ winners }

/-- `Evolution::rollover_generation` from evo.rs under the `Generation`
policy: bump the generation counter, swap `members` and `waiting`, then
drain the old generation. -/
def rollover_generation (st : EvoState) : EvoState :=
  { st with generation := st.generation + 1, members := st.waiting, waiting := [] }

/-- `Evolution::rollover` from evo.rs (the leaderboard step, which touches
only the leaderboard, and the metadata save are not modelled). -/
def rollover (sf : Indiv → F64) (st : EvoState) : EvoState :=
  rollover_generation (rollover_hall_of_fame sf st)

/-- `Evolution::death` from evo.rs: assign the next ascension number,
increment the counter, stage the individual in the waiting buffer, and roll
the generation over once `waiting` reaches `population_size`.
(`individual.save` touches only the serde-skipped fields and the disk.) -/
def death (sf : Indiv → F64) (st : EvoState) (individual : Indiv) : EvoState :=
  let individual := { individual with meta.ascension := some st.ascension }
  let st' := { st with
    ascension := st.ascension + 1,
    waiting := st.waiting ++ [individual] }
  if st'.population_size ≤ st'.waiting.length then rollover sf st' else st'

/-! ## Claims -/

/-- ASCII text as a byte list, for concrete protocol inputs. -/
def strBytes (s : String) : List Nat := s.data.map Char.toNat

/-- A degenerate float parser for protocol inputs that carry no `Advance`
frame (the `X` branch is the only consumer of the parser). -/
def parseNone : List Nat → Option Unit := fun _ => none

/-- Claim C1, counterexample: the `G` header body is not a byte count.
Reading `"G8\nbeepboop"` yields `Genome{value="8"}` with `"beepboop"` left
unread — not `Genome{value=b"beepboop"}` at end-of-stream. -/
theorem genome_frame_counterexample :
    readMessage parseNone (strBytes "G8\nbeepboop") =
      some (CtrlMessage.genome (strBytes "8"), strBytes "beepboop") ∧
    readMessage parseNone (strBytes "G8\nbeepboop") ≠
      some (CtrlMessage.genome (strBytes "beepboop"), []) := by
  constructor
  · decide
  · decide

/-- Claim C1 (amended): the `G` frame's header body is the genome value
itself — there is no byte count and no raw payload.  `Controller::genome`
writes `G{value}` on one line, and the reader takes the rest of the header
line as the value, consuming no payload bytes; reading `"G8\nbeepboop"`
therefore yields `Genome{value="8"}` and leaves `"beepboop"` unread. -/
theorem genome_frame_value_line {α : Type} (parseF : List Nat → Option α)
    (value rest : List Nat) (h10 : 10 ∉ value) :
    readMessage parseF ((71 :: value ++ [10]) ++ rest) =
      some (CtrlMessage.genome value, rest) ∧
    controllerGenomeBytes value = 71 :: value ++ [10] := by
  constructor
  · rw [parse_header_line parseF 71 value rest (by omega) h10]
    simp [parseTagged, parseTaggedUp, toAsciiUpper]
  · rfl

/-- Witness for C1's amended claim at the spec's concrete input. -/
theorem genome_frame_value_line_witness :
    readMessage parseNone ((71 :: strBytes "8" ++ [10]) ++ strBytes "beepboop") =
      some (CtrlMessage.genome (strBytes "8"), strBytes "beepboop") ∧
    controllerGenomeBytes (strBytes "8") = 71 :: strBytes "8" ++ [10] :=
  genome_frame_value_line parseNone (strBytes "8") (strBytes "beepboop") (by decide)

/-- Claim C5, counterexample: a line with tag byte `A` parses as a `Custom`
message, not as `Advance`; and `Controller::advance` writes tag byte
`X` (88), not `A` (65). -/
theorem advance_tag_counterexample :
    readMessage parseNone (strBytes "A1.5\n") =
      some (CtrlMessage.custom 65 (strBytes "1.5"), []) ∧
    controllerAdvanceBytes (fun _ => strBytes "1.5") () = strBytes "X1.5\n" ∧
    strBytes "X1.5\n" ≠ 65 :: strBytes "1.5" ++ [10] := by
  refine ⟨by decide, by decide, by decide⟩

/-- Claim C5 (amended): the advance-time operation is encoded with tag byte
`X` followed by the decimal float: `Controller::advance(dt)` and
`Message::write` both emit `X{dt}`, and the reader parses a line whose tag
byte is `X` as the `Advance` command. -/
theorem advance_tag_is_x {α : Type} (fmtF : α → List Nat) (parseF : List Nat → Option α)
    (dt : α) (body rest : List Nat) (hparse : parseF body = some dt) (h10 : 10 ∉ body) :
    controllerAdvanceBytes fmtF dt = 88 :: fmtF dt ++ [10] ∧
    writeMessage fmtF (CtrlMessage.advance dt) = 88 :: fmtF dt ++ [10] ∧
    readMessage parseF ((88 :: body ++ [10]) ++ rest) = some (CtrlMessage.advance dt, rest) := by
  refine ⟨rfl, rfl, ?_⟩
  rw [parse_header_line parseF 88 body rest (by omega) h10]
  simp [parseTagged, parseTaggedUp, toAsciiUpper, hparse]

/-- Witness for C5's amended claim at `dt` rendered as `"1.5"`. -/
theorem advance_tag_is_x_witness :
    controllerAdvanceBytes (fun _ => strBytes "1.5") () = 88 :: strBytes "1.5" ++ [10] ∧
    writeMessage (fun _ => strBytes "1.5") (CtrlMessage.advance ()) =
      88 :: strBytes "1.5" ++ [10] ∧
    readMessage (fun s => if s = strBytes "1.5" then some () else none)
        ((88 :: strBytes "1.5" ++ [10]) ++ []) = some (CtrlMessage.advance (), []) :=
  advance_tag_is_x (fun _ => strBytes "1.5") (fun s => if s = strBytes "1.5" then some () else none)
    () (strBytes "1.5") [] (by decide) (by decide)

/-- The `Display` / `FromStr` pair of Rust `f64` at the extreme value
`1.23e20`, modelled on the one-value type `Unit`. -/
def fmtExtreme : Unit → List Nat := fun _ => strBytes "1.23e20"

/-- The parse half of `fmtExtreme`. -/
def parseExtreme : List Nat → Option Unit :=
  fun s => if s = strBytes "1.23e20" then some () else none

/-- Witness for C3 at the spec's hard cases: a path with spaces, a quote, a
backslash and a colon; an empty genome string; a value containing `:`; a
binary payload containing NUL, newline, backslash and quote bytes; and the
extreme float `1.23e20`. -/
theorem ctrl_read_write_roundtrip_witness :
    readMessage parseExtreme (writeMessage fmtExtreme
        (CtrlMessage.environment (strBytes " a\"b\\c:d "))) =
      some (CtrlMessage.environment (strBytes " a\"b\\c:d "), []) ∧
    readMessage parseExtreme (writeMessage fmtExtreme (CtrlMessage.genome [])) =
      some (CtrlMessage.genome [], []) ∧
    readMessage parseExtreme (writeMessage fmtExtreme
        (CtrlMessage.setInput 46 (strBytes ": "))) =
      some (CtrlMessage.setInput 46 (strBytes ": "), []) ∧
    readMessage parseExtreme (writeMessage fmtExtreme
        (CtrlMessage.setBinary 100 [0, 10, 92, 34])) =
      some (CtrlMessage.setBinary 100 [0, 10, 92, 34], []) ∧
    readMessage parseExtreme (writeMessage fmtExtreme (CtrlMessage.advance ())) =
      some (CtrlMessage.advance (), []) :=
  ⟨ctrl_read_write_roundtrip fmtExtreme parseExtreme _ (by show 10 ∉ strBytes " a\"b\\c:d "; decide),
   ctrl_read_write_roundtrip fmtExtreme parseExtreme _ (by show 10 ∉ ([] : List Nat); decide),
   ctrl_read_write_roundtrip fmtExtreme parseExtreme _
     (by show 46 < 2 ^ 64 ∧ 10 ∉ strBytes ": "; decide),
   ctrl_read_write_roundtrip fmtExtreme parseExtreme _
     (by show 100 < 2 ^ 64 ∧ ([0, 10, 92, 34] : List Nat).length < 2 ^ 64; decide),
   ctrl_read_write_roundtrip fmtExtreme parseExtreme _
     (by show parseExtreme (fmtExtreme ()) = some () ∧ 10 ∉ fmtExtreme (); decide)⟩

/-- The `output` helper of ctrl.rs (controller side): the response to an
`O<gin>` request is the single line `{gin}:{value}`. -/
def outputLine (gin : Nat) (value : List Nat) : List Nat :=
  natToDecimal gin ++ 58 :: value ++ [10]

/-- Claim C2, counterexample: the controller's responses are not `O<gin>`
header lines followed by value lines.  The request side does write
`O2\nO5\nO9\n`, but on the claimed two-line reply
`O2\n0.5\nO5\n-1\nO9\nnan\n` the response reader panics at the first line
(no `:` separator) instead of returning the mapping. -/
theorem get_outputs_counterexample :
    getOutputsRequest [2, 5, 9] = strBytes "O2\nO5\nO9\n" ∧
    readOutputs 3 (strBytes "O2\n0.5\nO5\n-1\nO9\nnan\n") [] = none := by
  constructor
  · decide
  · rw [readOutputs.eq_def]
    decide

theorem natToDecimal_cons (n : Nat) : ∃ d0 dtl, natToDecimal n = d0 :: dtl := by
  rcases hnd : natToDecimal n with _ | ⟨d0, dtl⟩
  · exact absurd hnd (natToDecimal_ne_nil n)
  · exact ⟨d0, dtl, rfl⟩

theorem readOutputs_cons (count b : Nat) (tl : List Nat) (acc : List (Nat × List Nat))
    (hlt : acc.length < count) :
    readOutputs count (b :: tl) acc =
      (match splitOnce 58 (popByte (readLine (b :: tl)).1) with
       | none => none
       | some (g, v) =>
         match parseU64 g with
         | none => none
         | some gin => readOutputs count (readLine (b :: tl)).2 (insertOutput gin v acc)) := by
  rw [readOutputs.eq_def]
  simp [hlt]

theorem readOutputs_step (count gin : Nat) (value : List Nat) (acc : List (Nat × List Nat))
    (rest : List Nat) (hlt : acc.length < count) (hg : gin < 2 ^ 64) (hv : 10 ∉ value) :
    readOutputs count (outputLine gin value ++ rest) acc =
      readOutputs count rest (insertOutput gin value acc) := by
  obtain ⟨d0, dtl, hd⟩ := natToDecimal_cons gin
  have hbody10 : 10 ∉ natToDecimal gin ++ 58 :: value := by
    simp only [List.mem_append, List.mem_cons, not_or]
    exact ⟨natToDecimal_not_mem_10 gin, by omega, hv⟩
  have hshape : outputLine gin value ++ rest = d0 :: (dtl ++ (58 :: value ++ 10 :: rest)) := by
    simp [outputLine, hd]
  have hback : d0 :: (dtl ++ (58 :: value ++ 10 :: rest)) =
      (natToDecimal gin ++ 58 :: value) ++ 10 :: rest := by
    simp [hd]
  rw [hshape, readOutputs_cons count d0 _ acc hlt, hback, readLine_append rest hbody10]
  simp only [popByte, List.dropLast_concat]
  rw [splitOnce_append 58 value (natToDecimal_not_mem_58 gin)]
  simp [parseU64_natToDecimal hg]

theorem insertOutput_not_mem {gin : Nat} {acc : List (Nat × List Nat)}
    (h : gin ∉ acc.map Prod.fst) (value : List Nat) :
    insertOutput gin value acc = acc ++ [(gin, value)] := by
  induction acc with
  | nil => rfl
  | cons p rest ih =>
    simp only [List.map_cons, List.mem_cons, not_or] at h
    simp [insertOutput, Ne.symm h.1, ih h.2]

/-- The controller's reply stream: the concatenation of one `output` line per
requested GIN. -/
def encodeOutputs (pairs : List (Nat × List Nat)) : List Nat :=
  (pairs.map (fun p => outputLine p.1 p.2)).foldr (· ++ ·) []

theorem readOutputs_encode :
    ∀ (pairs acc : List (Nat × List Nat)), (pairs.map Prod.fst).Nodup →
      (∀ p ∈ pairs, p.1 < 2 ^ 64) → (∀ p ∈ pairs, 10 ∉ p.2) →
      (∀ p ∈ pairs, p.1 ∉ acc.map Prod.fst) →
      readOutputs (acc.length + pairs.length) (encodeOutputs pairs) acc = some (acc ++ pairs)
  | [], acc, _, _, _, _ => by
    rw [readOutputs.eq_def]
    simp [encodeOutputs]
  | p :: ps, acc, hk, hg, hv, hd => by
    have hlt : acc.length < acc.length + (p :: ps).length := by simp
    have henc : encodeOutputs (p :: ps) = outputLine p.1 p.2 ++ encodeOutputs ps := by
      simp [encodeOutputs]
    simp only [List.map_cons, List.nodup_cons] at hk
    rw [henc,
      readOutputs_step _ p.1 p.2 acc _ hlt (hg p (by simp)) (hv p (by simp)),
      insertOutput_not_mem (hd p (by simp)) p.2]
    have hd' : ∀ q ∈ ps, q.1 ∉ (acc ++ [(p.1, p.2)]).map Prod.fst := by
      intro q hq
      simp only [List.map_append, List.mem_append, List.map_cons, List.map_nil,
        List.mem_cons, List.not_mem_nil, not_or]
      refine ⟨hd q (by simp [hq]), ?_, by simp⟩
      intro hcontra
      exact hk.1 (hcontra ▸ List.mem_map_of_mem Prod.fst hq)
    have ih := readOutputs_encode ps (acc ++ [(p.1, p.2)]) hk.2
      (fun q hq => hg q (by simp [hq])) (fun q hq => hv q (by simp [hq])) hd'
    have hcnt : acc.length + (p :: ps).length = (acc ++ [(p.1, p.2)]).length + ps.length := by
      simp
      omega
    rw [hcnt, ih]
    simp

/-- Claim C2 (amended): `Controller::get_outputs` writes one `O<gin>` request
line per GIN (exactly the `GetOutput` frames, in list order) and flushes;
each controller response is a SINGLE line of the form `<gin>:<value>` (the
`output` helper), not an `O<gin>` line followed by a value line; the reader
collects one response per request into a map indexed by GIN.  After the
controller replies `2:0.5\n5:-1\n9:nan\n`, `get_outputs([2,5,9])` returns
the mapping `{2:"0.5", 5:"-1", 9:"nan"}`. -/
theorem get_outputs_single_line_replies :
    (∀ (α : Type) (fmtF : α → List Nat) (gins : List Nat),
      getOutputsRequest gins =
        (gins.map (fun gin => writeMessage fmtF (CtrlMessage.getOutput gin))).foldr (· ++ ·) []) ∧
    (∀ pairs : List (Nat × List Nat), (pairs.map Prod.fst).Nodup →
      (∀ p ∈ pairs, p.1 < 2 ^ 64) → (∀ p ∈ pairs, 10 ∉ p.2) →
      readOutputs pairs.length (encodeOutputs pairs) [] = some pairs) := by
  constructor
  · intro α fmtF gins
    rfl
  · intro pairs hk hg hv
    have := readOutputs_encode pairs [] hk hg hv (by simp)
    simpa using this

theorem readMessage_quit_frame {α : Type} (parseF : List Nat → Option α) (rest : List Nat) :
    readMessage parseF (81 :: 10 :: rest) = some (CtrlMessage.quit, rest) := by
  rw [show (81 :: 10 :: rest : List Nat) = (81 :: [] ++ [10]) ++ rest by simp,
    parse_header_line parseF 81 [] rest (by omega) (by simp)]
  rfl

/-- Claim C4, counterexample: at end-of-file on stdin, `API::main`'s
`poll()?` propagates the `UnexpectedEof` error, so `main` returns the error
without invoking the user-defined `quit` hook: no callback runs and the
return is not a normal exit. -/
theorem api_main_eof_counterexample :
    apiMain parseNone [] .none .none = ([], false) ∧
    ApiCall.quitHook ∉ (apiMain parseNone [] .none .none).1 := by
  have h : apiMain parseNone [] .none .none = ([], false) := by
    rw [apiMain.eq_def]
    decide
  exact ⟨h, by rw [h]; simp⟩

/-- Claim C4 (amended): EOF on stdin is an error, not the quit signal.
`API::main` then returns the propagated read error without invoking the
`quit` hook; the hook runs exactly when `main` returns normally, which
happens only on an explicit `Q` frame. -/
theorem api_main_eof_error {α : Type} (parseF : List Nat → Option α) :
    (∀ env pop, apiMain parseF [] env pop = ([], false)) ∧
    (∀ rest env pop, apiMain parseF (81 :: 10 :: rest) env pop = ([ApiCall.quitHook], true)) ∧
    (∀ input env pop, ApiCall.quitHook ∈ (apiMain parseF input env pop).1 ↔
      (apiMain parseF input env pop).2 = true) := by
  refine ⟨?_, ?_, ?_⟩
  · intro env pop
    rw [apiMain.eq_def]
    simp [readMessage, readNonEmptyLine]
  · intro rest env pop
    have hq := readMessage_quit_frame parseF rest
    rw [apiMain.eq_def]
    repeat' split
    all_goals simp_all
  · have main : ∀ (n : Nat) (input : List Nat), input.length ≤ n → ∀ env pop,
        (ApiCall.quitHook ∈ (apiMain parseF input env pop).1 ↔
          (apiMain parseF input env pop).2 = true) := by
      intro n
      induction n with
      | zero =>
        intro input hlen env pop
        have hin : input = [] := by cases input <;> simp_all
        subst hin
        rw [apiMain.eq_def]
        simp [readMessage, readNonEmptyLine]
      | succ n ih =>
        intro input hlen env pop
        rw [apiMain.eq_def]
        repeat' split
        · simp
        all_goals
          (rename_i h
           have hrest := readMessage_rest_lt parseF h
           first
            | simp
            | (exact ih _ (by omega) _ _)
            | (simp only [consCall, List.mem_cons]
               rw [ih _ (by omega) _ _]
               simp))
    exact fun input env pop => main input.length input le_rfl env pop

/-- Witness for C2's amended claim at the spec's concrete exchange. -/
theorem get_outputs_single_line_replies_witness :
    getOutputsRequest [2, 5, 9] = strBytes "O2\nO5\nO9\n" ∧
    encodeOutputs [(2, strBytes "0.5"), (5, strBytes "-1"), (9, strBytes "nan")] =
      strBytes "2:0.5\n5:-1\n9:nan\n" ∧
    readOutputs 3 (encodeOutputs [(2, strBytes "0.5"), (5, strBytes "-1"), (9, strBytes "nan")])
        [] = some [(2, strBytes "0.5"), (5, strBytes "-1"), (9, strBytes "nan")] := by
  refine ⟨by decide, by decide, ?_⟩
  exact get_outputs_single_line_replies.2
    [(2, strBytes "0.5"), (5, strBytes "-1"), (9, strBytes "nan")]
    (by decide) (by decide) (by decide)

theorem parseTaggedUp_tag_irrelevant {α : Type} (parseF : List Nat → Option α)
    (t t' up : Nat) (body rest : List Nat) (hup : up ∈ reservedTags) :
    parseTaggedUp parseF t up body rest = parseTaggedUp parseF t' up body rest := by
  simp only [reservedTags, List.mem_cons, List.not_mem_nil, or_false] at hup
  rcases hup with h | h | h | h | h | h | h | h | h | h | h <;> subst h <;> rfl

theorem parseTaggedUp_reserved_not_custom {α : Type} (parseF : List Nat → Option α)
    (t up : Nat) (body rest : List Nat) {m : CtrlMessage α} {r' : List Nat}
    (hup : up ∈ reservedTags) (h : parseTaggedUp parseF t up body rest = some (m, r')) :
    m.isCustom = false := by
  simp only [reservedTags, List.mem_cons, List.not_mem_nil, or_false] at hup
  rcases hup with hu | hu | hu | hu | hu | hu | hu | hu | hu | hu | hu <;> subst hu <;>
    (unfold parseTaggedUp at h
     norm_num at h
     repeat' split at h) <;>
    (try (obtain ⟨h1, h2⟩ := h; subst h1)) <;>
    (try cases h) <;>
    (try rfl)

/-- Claim C10: `Message::read` dispatches on the tag byte
case-insensitively.  A line whose first byte is a lowercase ASCII letter
whose uppercase form is one of the reserved command tags
(`E P G R I B X O S L Q`) parses exactly as the uppercase-tagged line does —
and never as a `Custom` message; a tag byte whose ASCII uppercase is not a
reserved tag always yields the `Custom` message (with the original tag
byte). -/
theorem tag_dispatch_case_insensitive {α : Type} (parseF : List Nat → Option α) :
    (∀ t body rest, 97 ≤ t → t ≤ 122 → (t - 32) ∈ reservedTags → 10 ∉ body →
      (readMessage parseF ((t :: body ++ [10]) ++ rest) =
        readMessage parseF (((t - 32) :: body ++ [10]) ++ rest) ∧
       ∀ m r', readMessage parseF ((t :: body ++ [10]) ++ rest) = some (m, r') →
         m.isCustom = false)) ∧
    (∀ t body rest, t ≠ 10 → toAsciiUpper t ∉ reservedTags → 10 ∉ body →
      readMessage parseF ((t :: body ++ [10]) ++ rest) =
        some (CtrlMessage.custom t body, rest)) := by
  constructor
  · intro t body rest h97 h122 hres hb
    have hup1 : toAsciiUpper t = t - 32 := by rw [toAsciiUpper, if_pos ⟨h97, h122⟩]
    have hup2 : toAsciiUpper (t - 32) = t - 32 := by
      rw [toAsciiUpper, if_neg]
      omega
    rw [parse_header_line parseF t body rest (by omega) hb,
      parse_header_line parseF (t - 32) body rest (by omega) hb]
    constructor
    · rw [parseTagged, parseTagged, hup1, hup2]
      exact parseTaggedUp_tag_irrelevant parseF t (t - 32) (t - 32) body rest hres
    · intro m r' hm
      rw [parseTagged, hup1] at hm
      exact parseTaggedUp_reserved_not_custom parseF t (t - 32) body rest hres hm
  · intro t body rest ht10 hres hb
    simp only [reservedTags, List.mem_cons, List.not_mem_nil, not_or] at hres
    rw [parse_header_line parseF t body rest ht10 hb]
    simp only [parseTagged, parseTaggedUp]
    simp [hres.1, hres.2.1, hres.2.2.1, hres.2.2.2.1, hres.2.2.2.2.1, hres.2.2.2.2.2.1,
      hres.2.2.2.2.2.2.1, hres.2.2.2.2.2.2.2.1, hres.2.2.2.2.2.2.2.2.1,
      hres.2.2.2.2.2.2.2.2.2.1, hres.2.2.2.2.2.2.2.2.2.2]

/-- Witness for C10: the lowercase line `"g8\n"` parses as the uppercase `G`
command (a `Genome`, not a `Custom`), and the unreserved tag `~` yields a
`Custom` message. -/
theorem tag_dispatch_case_insensitive_witness :
    (readMessage parseNone ((103 :: strBytes "8" ++ [10]) ++ []) =
      readMessage parseNone (((103 - 32) :: strBytes "8" ++ [10]) ++ []) ∧
     ∀ m r', readMessage parseNone ((103 :: strBytes "8" ++ [10]) ++ []) = some (m, r') →
       m.isCustom = false) ∧
    readMessage parseNone ((126 :: strBytes "hello" ++ [10]) ++ []) =
      some (CtrlMessage.custom 126 (strBytes "hello"), []) :=
  ⟨(tag_dispatch_case_insensitive parseNone).1 103 (strBytes "8") [] (by decide) (by decide)
     (by decide) (by decide),
   (tag_dispatch_case_insensitive parseNone).2 126 (strBytes "hello") [] (by decide) (by decide)
     (by decide)⟩

theorem lookupAssoc_updateAssoc_self {ν : Type} (k : String) (f : ν → ν) (m : List (String × ν)) :
    lookupAssoc k (updateAssoc k f m) = (lookupAssoc k m).map f := by
  induction m with
  | nil => rfl
  | cons p rest ih =>
    by_cases h : p.1 = k
    · simp [updateAssoc, lookupAssoc, h]
    · simp [updateAssoc, lookupAssoc, h, ih]

theorem lookupAssoc_updateAssoc_ne {ν : Type} {k k' : String} (hne : k ≠ k') (f : ν → ν)
    (m : List (String × ν)) : lookupAssoc k (updateAssoc k' f m) = lookupAssoc k m := by
  induction m with
  | nil => rfl
  | cons p rest ih =>
    by_cases h : p.1 = k'
    · simp only [updateAssoc, if_pos h, lookupAssoc]
      rw [if_neg (h ▸ Ne.symm hne), if_neg (h ▸ Ne.symm hne)]
    · simp only [updateAssoc, if_neg h, lookupAssoc]
      by_cases h2 : p.1 = k
      · rw [if_pos h2, if_pos h2]
      · rw [if_neg h2, if_neg h2, ih]

theorem lookupAssoc_eq_none {ν : Type} {k : String} {m : List (String × ν)}
    (h : k ∉ m.map Prod.fst) : lookupAssoc k m = none := by
  induction m with
  | nil => rfl
  | cons p rest ih =>
    simp only [List.map_cons, List.mem_cons, not_or] at h
    simp [lookupAssoc, Ne.symm h.1, ih h.2]

theorem lookupAssoc_removeAssoc_self {ν : Type} {k : String} {m : List (String × ν)}
    (hnd : (m.map Prod.fst).Nodup) : lookupAssoc k (removeAssoc k m) = none := by
  induction m with
  | nil => rfl
  | cons p rest ih =>
    simp only [List.map_cons, List.nodup_cons] at hnd
    by_cases h : p.1 = k
    · simp only [removeAssoc, if_pos h]
      exact lookupAssoc_eq_none (h ▸ hnd.1)
    · simp [removeAssoc, h, lookupAssoc, ih hnd.2]

theorem lookupAssoc_removeAssoc_ne {ν : Type} {k k' : String} (hne : k ≠ k')
    (m : List (String × ν)) : lookupAssoc k (removeAssoc k' m) = lookupAssoc k m := by
  induction m with
  | nil => rfl
  | cons p rest ih =>
    by_cases h : p.1 = k'
    · simp only [removeAssoc, if_pos h, lookupAssoc]
      rw [if_neg (h ▸ Ne.symm hne)]
    · simp only [removeAssoc, if_neg h, lookupAssoc]
      by_cases h2 : p.1 = k
      · rw [if_pos h2, if_pos h2]
      · rw [if_neg h2, if_neg h2, ih]

theorem lookupAssoc_insertAssoc {ν : Type} (k k' : String) (v : ν) (m : List (String × ν)) :
    lookupAssoc k (insertAssoc k' v m) = if k = k' then some v else lookupAssoc k m := by
  induction m with
  | nil =>
    by_cases h : k = k' <;> simp [insertAssoc, lookupAssoc, h, Ne.symm]
  | cons p rest ih =>
    by_cases h : p.1 = k'
    · subst h
      by_cases h2 : k = p.1
      · simp [insertAssoc, lookupAssoc, h2]
      · simp [insertAssoc, lookupAssoc, h2, Ne.symm h2]
    · simp only [insertAssoc, if_neg h, lookupAssoc]
      by_cases h2 : p.1 = k
      · have hkk : ¬ k = k' := fun he => h (by rw [h2, he])
        rw [if_pos h2, if_neg hkk, if_pos h2]
      · simp [h2, ih]

theorem lookupAssoc_foldl_insert (info : List (String × String)) :
    ∀ (tel : List (String × String)) (k : String), (info.map Prod.fst).Nodup →
      lookupAssoc k (info.foldl (fun t p => insertAssoc p.1 p.2 t) tel) =
        (lookupAssoc k info).or (lookupAssoc k tel) := by
  induction info with
  | nil => intro tel k _; simp [lookupAssoc, Option.or]
  | cons p ps ih =>
    intro tel k hnd
    simp only [List.map_cons, List.nodup_cons] at hnd
    rw [List.foldl_cons, ih (insertAssoc p.1 p.2 tel) k hnd.2]
    by_cases h : k = p.1
    · rw [lookupAssoc_eq_none (h ▸ hnd.1)]
      simp [lookupAssoc, lookupAssoc_insertAssoc, h, Option.or]
    · simp [lookupAssoc, lookupAssoc_insertAssoc, h, Ne.symm h]

/-- Claim C6: for every message `Environment::poll` receives — a `Score`
message sets the named outstanding individual's score and surfaces no event;
a `Telemetry` message merges its key-value pairs into the named outstanding
individual's telemetry map (its own pairs winning) and surfaces no event; a
`Death` message removes the individual from the outstanding map, stamps the
(non-empty) death date on it, and surfaces a `Death` event carrying the
removed record, which keeps its previously reported score and telemetry. -/
theorem poll_score_telemetry_death :
    (∀ (now : String) (bts : List String) (outs : List (String × Indiv))
        (value name nm : String) (ind : Indiv),
      fillName outs name = some nm → lookupAssoc nm outs = some ind →
      pollMessage now bts outs (JsonMessage.score value name) =
        some (updateAssoc nm (fun i => { i with meta.score := some value }) outs, none) ∧
      lookupAssoc nm (updateAssoc nm (fun i => { i with meta.score := some value }) outs) =
        some { ind with meta.score := some value } ∧
      ∀ other, other ≠ nm →
        lookupAssoc other (updateAssoc nm (fun i => { i with meta.score := some value }) outs) =
          lookupAssoc other outs) ∧
    (∀ (now : String) (bts : List String) (outs : List (String × Indiv))
        (name nm : String) (info : List (String × String)) (ind : Indiv),
      fillName outs name = some nm → lookupAssoc nm outs = some ind →
      (info.map Prod.fst).Nodup →
      pollMessage now bts outs (JsonMessage.telemetry info name) =
        some (updateAssoc nm (fun i => { i with
          meta.telemetry := info.foldl (fun t p => insertAssoc p.1 p.2 t) i.meta.telemetry })
          outs, none) ∧
      ∀ k, lookupAssoc k
          ((info.foldl (fun t p => insertAssoc p.1 p.2 t) ind.meta.telemetry)) =
        (lookupAssoc k info).or (lookupAssoc k ind.meta.telemetry)) ∧
    (∀ (now : String) (bts : List String) (outs : List (String × Indiv))
        (name nm : String) (ind : Indiv),
      now ≠ "" → (outs.map Prod.fst).Nodup →
      fillName outs name = some nm → lookupAssoc nm outs = some ind →
      pollMessage now bts outs (JsonMessage.death name) =
        some (removeAssoc nm outs,
          some (EnvEvent.death { ind with meta.death_date := now })) ∧
      lookupAssoc nm (removeAssoc nm outs) = none ∧
      ({ ind with meta.death_date := now } : Indiv).meta.death_date ≠ "" ∧
      ({ ind with meta.death_date := now } : Indiv).meta.score = ind.meta.score ∧
      ({ ind with meta.death_date := now } : Indiv).meta.telemetry = ind.meta.telemetry) := by
  refine ⟨?_, ?_, ?_⟩
  · intro now bts outs value name nm ind h1 h2
    refine ⟨?_, ?_, ?_⟩
    · simp [pollMessage, h1, h2]
    · rw [lookupAssoc_updateAssoc_self, h2]
      rfl
    · intro other hne
      exact lookupAssoc_updateAssoc_ne hne _ outs
  · intro now bts outs name nm info ind h1 h2 hnd
    refine ⟨?_, ?_⟩
    · simp [pollMessage, h1, h2]
    · intro k
      exact lookupAssoc_foldl_insert info ind.meta.telemetry k hnd
  · intro now bts outs name nm ind hnow hnd h1 h2
    refine ⟨?_, ?_, ?_, rfl, rfl⟩
    · simp [pollMessage, h1, h2]
    · exact lookupAssoc_removeAssoc_self hnd
    · exact hnow

/-- A bare individual named `"x"`, as the driver would create it. -/
def indivX : Indiv :=
  { meta := { name := "x", ascension := none, environment := "", population := "",
              species := "", controller := [], telemetry := [], epigenome := [],
              score := none, generation := 0, parents := [], children := [],
              birth_date := "", death_date := "", extra := [] },
    genome := none, path := none }

/-- The outstanding map after `birth` of `indivX` at time `"d0"`. -/
def outsX : List (String × Indiv) := birth "d0" [] indivX

/-- `indivX` as stored by `birth`. -/
def bornX : Indiv := { indivX with meta.birth_date := "d0" }

/-- The outstanding map after the `Score{value:"7.25", name:""}` message. -/
def outsX1 : List (String × Indiv) :=
  updateAssoc "x" (fun i => { i with meta.score := some "7.25" }) outsX

/-- `bornX` after its score report. -/
def scoredX : Indiv := { bornX with meta.score := some "7.25" }

/-- The outstanding map after the `Telemetry{info:{"k":"v"}, name:""}` message. -/
def outsX2 : List (String × Indiv) :=
  updateAssoc "x" (fun i => { i with
    meta.telemetry := ([("k", "v")] : List (String × String)).foldl
      (fun t p => insertAssoc p.1 p.2 t) i.meta.telemetry }) outsX1

/-- `scoredX` after its telemetry report. -/
def taggedX : Indiv := { scoredX with meta.telemetry := [("k", "v")] }

/-- Witness for C6 at the spec's Birth → Score → Telemetry → Death scenario
(empty names defaulting to the single outstanding individual `"x"`). -/
theorem poll_score_telemetry_death_witness :
    (pollMessage "d1" ["p"] outsX (JsonMessage.score "7.25" "") =
      some (updateAssoc "x" (fun i => { i with meta.score := some "7.25" }) outsX, none) ∧
     lookupAssoc "x" (updateAssoc "x" (fun i => { i with meta.score := some "7.25" }) outsX) =
      some { bornX with meta.score := some "7.25" }) ∧
    (pollMessage "d2" ["p"] outsX1 (JsonMessage.telemetry [("k", "v")] "") =
      some (updateAssoc "x" (fun i => { i with
        meta.telemetry := ([("k", "v")] : List (String × String)).foldl
          (fun t p => insertAssoc p.1 p.2 t) i.meta.telemetry }) outsX1, none)) ∧
    (pollMessage "d3" ["p"] outsX2 (JsonMessage.death "") =
      some (removeAssoc "x" outsX2,
        some (EnvEvent.death { taggedX with meta.death_date := "d3" })) ∧
     lookupAssoc "x" (removeAssoc "x" outsX2) = none ∧
     ({ taggedX with meta.death_date := "d3" } : Indiv).meta.death_date ≠ "" ∧
     ({ taggedX with meta.death_date := "d3" } : Indiv).meta.score = taggedX.meta.score ∧
     ({ taggedX with meta.death_date := "d3" } : Indiv).meta.telemetry =
       taggedX.meta.telemetry) := by
  refine ⟨⟨?_, ?_⟩, ?_, ?_⟩
  · exact (poll_score_telemetry_death.1 "d1" ["p"] outsX "7.25" "" "x" bornX
      (by decide) (by decide)).1
  · exact (poll_score_telemetry_death.1 "d1" ["p"] outsX "7.25" "" "x" bornX
      (by decide) (by decide)).2.1
  · exact (poll_score_telemetry_death.2.1 "d2" ["p"] outsX1 "" "x" [("k", "v")] scoredX
      (by decide) (by decide) (by decide)).1
  · exact poll_score_telemetry_death.2.2 "d3" ["p"] outsX2 "" "x" taggedX
      (by decide) (by decide) (by decide) (by decide)

/-- Claim C7: the default score function maps a missing score and an
unparseable score text to negative infinity; under the `compare_scores`
comparator a NaN score compares greater than any finite value (and a finite
value less than any NaN), so in any list sorted by the comparator — the
descending leaderboard order — once a NaN-scored individual appears, every
later individual is NaN-scored: NaNs sort last. -/
theorem score_missing_neg_inf_nan_last :
    (∀ (parseF64 : String → Option F64) (ind : Indiv), ind.meta.score = none →
      default_score parseF64 ind = F64.inf true) ∧
    (∀ (parseF64 : String → Option F64) (ind : Indiv) (s : String),
      ind.meta.score = some s → parseF64 s = none →
      default_score parseF64 ind = F64.inf true) ∧
    (∀ (sf : Indiv → F64) (a b : Indiv) (q : ℚ), (sf a).isNan = true → sf b = F64.fin q →
      compare_scores sf a b = Ordering.gt ∧ compare_scores sf b a = Ordering.lt) ∧
    (∀ (sf : Indiv → F64) (l : List Indiv),
      l.Pairwise (fun a b => compare_scores sf a b ≠ Ordering.gt) →
      l.Pairwise (fun a b => (sf a).isNan = true → (sf b).isNan = true)) := by
  refine ⟨?_, ?_, ?_, ?_⟩
  · intro parseF64 ind h
    simp [default_score, h, DEFAULT_SCORE]
  · intro parseF64 ind s h1 h2
    simp [default_score, h1, h2, DEFAULT_SCORE]
  · intro sf a b q ha hb
    have hbn : (sf b).isNan = false := by rw [hb]; rfl
    constructor <;> simp [compare_scores, ha, hbn, Ordering.swap]
  · intro sf l h
    refine h.imp ?_
    intro a b hab hna
    by_contra hnb
    have hnb' : (sf b).isNan = false := by simpa using hnb
    apply hab
    simp [compare_scores, hna, hnb', Ordering.swap]

/-- An individual with the NaN score text, and a score function reading the
text. -/
def nanX : Indiv := { indivX with meta.score := some "NaN" }

/-- A finite-scored individual. -/
def sevenX : Indiv := { indivX with meta.score := some "7" }

/-- A concrete score function for the witness: `"NaN"` is a NaN, anything
else counts as the finite value 0. -/
def sfX : Indiv → F64 := fun i =>
  match i.meta.score with
  | some "NaN" => F64.nan false
  | _ => F64.fin 0

/-- Witness for C7: missing and unparseable scores default to `-inf`, the
NaN-scored `nanX` compares greater than the finite-scored `sevenX`, and the
sorted-by-comparator list `[sevenX, nanX]` keeps its NaN last. -/
theorem score_missing_neg_inf_nan_last_witness :
    default_score (fun _ => none) indivX = F64.inf true ∧
    default_score (fun _ => none) sevenX = F64.inf true ∧
    (compare_scores sfX nanX sevenX = Ordering.gt ∧
     compare_scores sfX sevenX nanX = Ordering.lt) ∧
    List.Pairwise (fun a b => (sfX a).isNan = true → (sfX b).isNan = true) [sevenX, nanX] :=
  ⟨score_missing_neg_inf_nan_last.1 (fun _ => none) indivX (by decide),
   score_missing_neg_inf_nan_last.2.1 (fun _ => none) sevenX "7" (by decide) rfl,
   score_missing_neg_inf_nan_last.2.2.1 sfX nanX sevenX 0 (by decide) (by decide),
   score_missing_neg_inf_nan_last.2.2.2 sfX [sevenX, nanX] (by decide)⟩

theorem readUntilNul_append {xs : List Nat} (g : List Nat) (h : 0 ∉ xs) :
    readUntilNul (xs ++ 0 :: g) = xs ++ [0] := by
  induction xs with
  | nil => simp [readUntilNul]
  | cons b bs ih =>
    simp only [List.mem_cons, not_or] at h
    simp [readUntilNul, Ne.symm h.1, ih h.2]

theorem popIfNul_concat (xs : List Nat) : popIfNul (xs ++ [0]) = xs := by
  rw [popIfNul, if_pos, List.dropLast_concat]
  rw [List.getLast?_concat]

theorem afterNul_append {xs : List Nat} (g : List Nat) (h : 0 ∉ xs) :
    afterNul (xs ++ 0 :: g) = g := by
  induction xs with
  | nil => simp [afterNul]
  | cons b bs ih =>
    simp only [List.mem_cons, not_or] at h
    simp [afterNul, Ne.symm h.1, ih h.2]

/-- Claim C9: `Individual::save` lays the file out as JSON metadata, a single
NUL byte, then the genome verbatim, and `Individual::load` of that file
returns an individual equal to the saved one (same metadata, genome freed,
path remembered); `Individual::genome` re-reads exactly the original genome
bytes from the portion of the file after the first NUL byte.  The serde_json
codec is abstract; the hypotheses are its decode-of-encode round trip and
that its output contains no raw NUL byte (serde_json escapes control
characters). -/
theorem individual_save_load_roundtrip
    (jsonEnc : IndivMeta → List Nat) (jsonDec : List Nat → Option IndivMeta)
    (meta : IndivMeta) (g : List Nat) (p : String) (q : Option String)
    (hdec : jsonDec (jsonEnc meta) = some meta) (hnul : 0 ∉ jsonEnc meta) :
    loadIndiv jsonDec p (saveFileBytes jsonEnc meta g) =
      some (savedIndiv { meta := meta, genome := some g, path := q } p) ∧
    afterNul (saveFileBytes jsonEnc meta g) = g := by
  constructor
  · rw [loadIndiv, saveFileBytes, readUntilNul_append g hnul, popIfNul_concat, hdec]
    rfl
  · rw [saveFileBytes]
    exact afterNul_append g hnul

/-- Witness for C9 with a concrete one-point JSON codec, the genome
`"beepboop"` and the path `"/tmp/x.indiv"`. -/
theorem individual_save_load_roundtrip_witness :
    loadIndiv (fun l => if l = [123] then some indivX.meta else none) "/tmp/x.indiv"
        (saveFileBytes (fun _ => [123]) indivX.meta (strBytes "beepboop")) =
      some (savedIndiv ⟨indivX.meta, some (strBytes "beepboop"), none⟩ "/tmp/x.indiv") ∧
    afterNul (saveFileBytes (fun _ => [123]) indivX.meta (strBytes "beepboop")) =
      strBytes "beepboop" :=
  individual_save_load_roundtrip (fun _ => [123])
    (fun l => if l = [123] then some indivX.meta else none)
    indivX.meta (strBytes "beepboop") "/tmp/x.indiv" none (by decide) (by decide)

/-- A population state holding exactly one waiting individual under a
hall-of-fame cap of one. -/
def cap1State : EvoState :=
  { population_size := 10, hall_of_fame_size := 1, ascension := 1, generation := 0,
    members := [], waiting := [{ indivX with meta.ascension := some 0 }], hall_of_fame := [] }

/-- Claim C8, counterexample: with cap 1 and one waiting individual,
`min(hall_of_fame_size, |waiting|) = 1`, yet the rollover inducts
`hall_of_fame_size.min(waiting.len() - 1) = 0` individuals: the hall of fame
stays empty instead of receiving the single waiting individual. -/
theorem hall_of_fame_counterexample :
    min cap1State.hall_of_fame_size cap1State.waiting.length = 1 ∧
    (rollover_hall_of_fame (fun _ => F64.fin 5) cap1State).hall_of_fame = [] ∧
    (rollover_hall_of_fame (fun _ => F64.fin 5) cap1State).hall_of_fame.length ≠
      min cap1State.hall_of_fame_size cap1State.waiting.length := by
  refine ⟨by decide, by decide, by decide⟩

/-- The hall-of-fame invariant `Evolution` maintains: every recorded
ascension in the hall of fame or the waiting buffer lies below the ascension
counter, the hall of fame is sorted ascending by ascension, and everything
waiting ascends later than everything already in the hall of fame. -/
def HofInv (st : EvoState) : Prop :=
  (∀ x ∈ st.hall_of_fame ++ st.waiting,
    x.meta.ascension.elim True fun a => a < st.ascension) ∧
  List.Pairwise ascLe st.hall_of_fame ∧
  (∀ h ∈ st.hall_of_fame, ∀ w ∈ st.waiting, ascLe h w)

theorem rollover_hall_of_fame_inv (sf : Indiv → F64) (st : EvoState) (hinv : HofInv st) :
    HofInv (rollover sf st) := by
  obtain ⟨hbound, hsorted, hcross⟩ := hinv
  rw [rollover, rollover_hall_of_fame]
  by_cases hskip : st.hall_of_fame_size = 0 ∨ st.waiting = []
  · rw [if_pos hskip]
    refine ⟨?_, hsorted, ?_⟩
    · intro x hx
      simp only [rollover_generation, List.mem_append, List.not_mem_nil, or_false] at hx
      exact hbound x (by simp [hx])
    · intro h hh w hw
      simp [rollover_generation] at hw
  · rw [if_neg hskip]
    set n := min st.hall_of_fame_size (st.waiting.length - 1) with hn
    set arranged := List.insertionSort (scoreLe sf) st.waiting with harr
    set winners := List.insertionSort ascLe (arranged.take n) with hwin
    have hwin_sub : ∀ w ∈ winners, w ∈ st.waiting := by
      intro w hw
      rw [hwin, List.mem_insertionSort] at hw
      have := List.take_subset n arranged hw
      rw [harr, List.mem_insertionSort] at this
      exact this
    refine ⟨?_, ?_, ?_⟩
    · intro x hx
      simp only [rollover_generation, List.mem_append, List.not_mem_nil, or_false] at hx
      rcases hx with hx | hx
      · exact hbound x (by simp [hx])
      · exact hbound x (by simp [hwin_sub x hx])
    · simp only [rollover_generation]
      rw [List.pairwise_append]
      refine ⟨hsorted, ?_, ?_⟩
      · exact List.sorted_insertionSort ascLe (arranged.take n)
      · intro h hh w hw
        exact hcross h hh w (hwin_sub w hw)
    · intro h hh w hw
      simp [rollover_generation] at hw

theorem death_inv (sf : Indiv → F64) (st : EvoState) (ind : Indiv) (hinv : HofInv st) :
    HofInv (death sf st ind) := by
  obtain ⟨hbound, hsorted, hcross⟩ := hinv
  rw [death]
  have hinv' : HofInv { st with
      ascension := st.ascension + 1,
      waiting := st.waiting ++ [{ ind with meta.ascension := some st.ascension }] } := by
    refine ⟨?_, hsorted, ?_⟩
    · intro x hx
      simp only [List.mem_append, List.mem_singleton] at hx
      rcases hx with hx | hx | hx
      · have := hbound x (by simp [hx])
        cases haz : x.meta.ascension <;> simp_all [Option.elim] <;> omega
      · have := hbound x (by simp [hx])
        cases haz : x.meta.ascension <;> simp_all [Option.elim] <;> omega
      · subst hx
        simp [Option.elim]
    · intro h hh w hw
      simp only [List.mem_append, List.mem_singleton] at hw
      rcases hw with hw | hw
      · exact hcross h hh w hw
      · subst hw
        have := hbound h (by simp [hh])
        rw [ascLe]
        cases haz : h.meta.ascension with
        | none => simp [optNatLe]
        | some a =>
          simp_all [Option.elim, optNatLe]
          omega
  by_cases hfull : ({ st with
      ascension := st.ascension + 1,
      waiting := st.waiting ++ [{ ind with meta.ascension := some st.ascension }]
      } : EvoState).population_size ≤ st.waiting.length + 1
  · simp only [List.length_append, List.length_singleton]
    rw [if_pos (by simpa using hfull)]
    exact rollover_hall_of_fame_inv sf _ hinv'
  · simp only [List.length_append, List.length_singleton]
    rw [if_neg (by simpa using hfull)]
    exact hinv'

/-- Claim C8 (amended): with a non-zero cap and a non-empty waiting buffer,
the rollover selects the `min(hall_of_fame_size, |waiting| - 1)` highest
scorers from the waiting buffer (one fewer than the full buffer when fewer
than `hall_of_fame_size + 1` individuals are waiting), sorts that selection
by ascension ascending, and appends it to the hall of fame; and after any
sequence of deaths from a state satisfying the hall-of-fame invariant, the
hall of fame is sorted ascending by ascension. -/
theorem hall_of_fame_induction :
    (∀ (sf : Indiv → F64) (st : EvoState), st.waiting ≠ [] → st.hall_of_fame_size ≠ 0 →
      (rollover_hall_of_fame sf st).hall_of_fame =
        st.hall_of_fame ++ List.insertionSort ascLe
          ((List.insertionSort (scoreLe sf) st.waiting).take
            (min st.hall_of_fame_size (st.waiting.length - 1))) ∧
      (rollover_hall_of_fame sf st).hall_of_fame.length =
        st.hall_of_fame.length + min st.hall_of_fame_size (st.waiting.length - 1)) ∧
    (∀ (sf : Indiv → F64) (st : EvoState) (inds : List Indiv), HofInv st →
      HofInv (List.foldl (death sf) st inds) ∧
      (List.foldl (death sf) st inds).hall_of_fame.Pairwise ascLe) := by
  constructor
  · intro sf st hw hcap
    have hne : ¬ (st.hall_of_fame_size = 0 ∨ st.waiting = []) := by
      simp [hw, hcap]
    constructor
    · rw [rollover_hall_of_fame, if_neg hne]
    · rw [rollover_hall_of_fame, if_neg hne]
      simp only [List.length_append, List.length_insertionSort, List.length_take]
      have h1 : 1 ≤ st.waiting.length := by
        cases hws : st.waiting with
        | nil => exact absurd hws hw
        | cons a l => simp
      omega
  · intro sf st inds hinv
    induction inds generalizing st with
    | nil => exact ⟨hinv, hinv.2.1⟩
    | cons i rest ih =>
      rw [List.foldl_cons]
      exact ih (death sf st i) (death_inv sf st i hinv)

/-- Witness for C8's amended claim: the characterization at a two-individual
waiting buffer with cap 1, and the sortedness of the hall of fame after a
sequence of deaths from the empty population state. -/
theorem hall_of_fame_induction_witness :
    ((rollover_hall_of_fame sfX
        { population_size := 10, hall_of_fame_size := 1, ascension := 2, generation := 0,
          members := [], waiting := [sevenX, nanX], hall_of_fame := [] }).hall_of_fame =
      List.insertionSort ascLe
        ((List.insertionSort (scoreLe sfX) [sevenX, nanX]).take 1)) ∧
    HofInv (List.foldl (death sfX)
      { population_size := 1, hall_of_fame_size := 1, ascension := 0, generation := 0,
        members := [], waiting := [], hall_of_fame := [] } [sevenX, nanX, indivX]) ∧
    (List.foldl (death sfX)
      { population_size := 1, hall_of_fame_size := 1, ascension := 0, generation := 0,
        members := [], waiting := [], hall_of_fame := [] }
      [sevenX, nanX, indivX]).hall_of_fame.Pairwise ascLe := by
  refine ⟨?_, ?_, ?_⟩
  · have h := (hall_of_fame_induction.1 sfX
      { population_size := 10, hall_of_fame_size := 1, ascension := 2, generation := 0,
        members := [], waiting := [sevenX, nanX], hall_of_fame := [] }
      (by decide) (by decide)).1
    simpa using h
  · exact (hall_of_fame_induction.2 sfX
      { population_size := 1, hall_of_fame_size := 1, ascension := 0, generation := 0,
        members := [], waiting := [], hall_of_fame := [] } [sevenX, nanX, indivX]
      (by simp [HofInv])).1
  · exact (hall_of_fame_induction.2 sfX
      { population_size := 1, hall_of_fame_size := 1, ascension := 0, generation := 0,
        members := [], waiting := [], hall_of_fame := [] } [sevenX, nanX, indivX]
      (by simp [HofInv])).2

end NpcMaker
